import Mathlib

/-!
Shallow embedding of the skill-extraction and gap-analysis core of the
CareerPath Gap Analyzer (React/TypeScript).  The extractor
`extractSkillsFromText` and the LinkedIn text entry point
`parseLinkedInText` are translated from `src/utils/resumeParser.ts` and
`src/utils/linkedinParser.ts`; the data model mirrors `src/types.ts`.
JavaScript strings are modelled over their ASCII fragment (`Char.toLower`
is the ASCII case map, `\w` is `[A-Za-z0-9_]`, `\s` is ASCII whitespace),
which covers every behaviour the properties below exercise.
-/

/-- Skill categories, from `src/types.ts` (`SkillCategory`). -/
inductive SkillCategory
  | language
  | framework
  | tool
  | soft
deriving DecidableEq

/-- A vocabulary entry, from `src/types.ts` (`Skill`). -/
structure Skill where
  id : String
  label : String
  aliases : List String
  category : SkillCategory
deriving DecidableEq

/-- ASCII model of JavaScript `String.prototype.toLowerCase`. -/
def lowerStr (s : String) : String :=
  ⟨s.data.map Char.toLower⟩

/-- JavaScript regex word-character class `\w`, i.e. `[A-Za-z0-9_]`. -/
def isWordChar (c : Char) : Bool :=
  ('a' ≤ c && c ≤ 'z') || ('A' ≤ c && c ≤ 'Z') || ('0' ≤ c && c ≤ '9') || c = '_'

/-- Whether position `i` of `text` holds a word character
(out-of-range positions count as non-word, as in regex `\b` semantics). -/
def wordAt (text : List Char) (i : Nat) : Bool :=
  match text[i]? with
  | some c => isWordChar c
  | none => false

/-- JavaScript `\b` assertion at position `i` (between index `i - 1` and
index `i`): exactly one side is a word character. -/
def boundaryAt (text : List Char) (i : Nat) : Bool :=
  ((i != 0) && wordAt text (i - 1)) != wordAt text i

/-- Case-insensitive literal match of `pat` against the front of a text
suffix, modelling the regex `i` flag on ASCII. -/
def litMatchAt : List Char → List Char → Bool
  | [], _ => true
  | _ :: _, [] => false
  | p :: ps, t :: ts => (p.toLower == t.toLower) && litMatchAt ps ts

/-- Semantics of the regex `\b<lit>\b` with flags `gi` under `.test`:
some position carries a word boundary, a case-insensitive occurrence of
the literal `pat`, and a closing word boundary.  This is the meaning of
the regex built on line 213 of `src/utils/resumeParser.ts`, whose body is
a pure literal because every metacharacter is escaped first. -/
def regexTestB (pat text : List Char) : Bool :=
  (List.range (text.length + 1)).any fun i =>
    boundaryAt text i && litMatchAt pat (text.drop i) && boundaryAt text (i + pat.length)

/-- The character class escaped by `resumeParser.ts` line 213:
`[.*+?^$\x7b\x7d()|[\]\\]`. -/
def isMetaChar (c : Char) : Bool :=
  c = '.' || c = '*' || c = '+' || c = '?' || c = '^' || c = '$' ||
  c = '\x7b' || c = '\x7d' || c = '(' || c = ')' || c = '|' ||
  c = '[' || c = ']' || c = '\\'

/-- `pattern.replace(/[.*+?^$\x7b\x7d()|[\]\\]/g, "\\$&")` from
`resumeParser.ts` line 213: a backslash is put before every
metacharacter. -/
def escapeRegExp : List Char → List Char
  | [] => []
  | c :: cs => if isMetaChar c then '\\' :: c :: escapeRegExp cs else c :: escapeRegExp cs

/-- Parse a regex body as a pure literal: a sequence of atoms that are
either a backslash-escaped metacharacter or a plain non-metacharacter.
`none` models a body that is not such a literal, in which case
interpreting it literally would be wrong (construction may throw or the
regex has operators). -/
def literalOfEscaped : List Char → Option (List Char)
  | [] => some []
  | [c] => if isMetaChar c then none else some [c]
  | c :: d :: rest =>
    if c = '\\' then
      if isMetaChar d then (literalOfEscaped rest).map (d :: ·) else none
    else if isMetaChar c then none
    else (literalOfEscaped (d :: rest)).map (c :: ·)

/-- Model of `new RegExp("\\b" + body + "\\b", "gi").test(text)`:
`none` when the body is not a plain literal (the `RegExp` constructor
path the escaping is meant to keep unreachable), otherwise the boolean
outcome of the word-boundary test. -/
def jsRegexTest (body text : List Char) : Option Bool :=
  (literalOfEscaped body).map fun lit => regexTestB lit text

/-- Candidate `(pattern, skillId)` pairs contributed by one vocabulary
entry: the lower-cased label, the lower-cased id when it differs from the
lower-cased label, then the lower-cased aliases
(`resumeParser.ts` lines 183–205). -/
def skillCandidates (skill : Skill) : List (String × String) :=
  (lowerStr skill.label, skill.id) ::
    ((if lowerStr skill.id == lowerStr skill.label then []
      else [(lowerStr skill.id, skill.id)]) ++
      skill.aliases.map fun a => (lowerStr a, skill.id))

/-- The flat candidate list over the whole vocabulary, in declaration
order (`resumeParser.ts` lines 183–205). -/
def buildCandidates : List Skill → List (String × String)
  | [] => []
  | s :: rest => skillCandidates s ++ buildCandidates rest

/-- Insert a candidate into a list sorted by pattern length descending,
after every element of greater or equal length.  Folding this over the
candidate list is the unique stable sort under the comparator
`(a, b) => b.pattern.length - a.pattern.length` of `resumeParser.ts`
line 208 (`Array.prototype.sort` is stable). -/
def insertCand (c : String × String) : List (String × String) → List (String × String)
  | [] => [c]
  | d :: ds => if d.1.length > c.1.length then d :: insertCand c ds else c :: d :: ds

/-- Stable sort of the candidate list by pattern length, longest first
(`resumeParser.ts` line 208). -/
def sortCandidates : List (String × String) → List (String × String)
  | [] => []
  | c :: cs => insertCand c (sortCandidates cs)

/-- The matching loop of `resumeParser.ts` lines 211–218 with the regex
already interpreted (see `regexTestB`): record a skill id on its first
matching pattern, skip candidates whose id was already seen. -/
def scanPure (text : List Char) (seen : List String) :
    List (String × String) → List String
  | [] => []
  | (pat, sid) :: rest =>
    if regexTestB pat.data text && !(seen.contains sid) then
      sid :: scanPure text (sid :: seen) rest
    else
      scanPure text seen rest

/-- `extractSkillsFromText` from `src/utils/resumeParser.ts` lines
176–221, with the per-candidate regex replaced by its literal semantics
(justified by `literalOfEscaped_escapeRegExp` and
`scanCandidatesE_eq_ok` below). -/
def extractSkillsFromText (text : String) (skills : List Skill) : List String :=
  scanPure text.data [] (sortCandidates (buildCandidates skills))

/-- The matching loop of `resumeParser.ts` lines 211–218 kept fully
faithful to the possibility of a `RegExp` construction error: each
candidate pattern is metacharacter-escaped, the resulting body is handed
to `jsRegexTest`, and a body that fails to be a plain literal surfaces as
a thrown `SyntaxError`. -/
def scanCandidatesE (text : List Char) (seen : List String) :
    List (String × String) → Except String (List String)
  | [] => .ok []
  | (pat, sid) :: rest =>
    match jsRegexTest (escapeRegExp pat.data) text with
    | none => .error "SyntaxError: invalid regular expression"
    | some b =>
      if b && !(seen.contains sid) then
        (scanCandidatesE text (sid :: seen) rest).map fun l => sid :: l
      else
        scanCandidatesE text seen rest

/-- `extractSkillsFromText` with the throwing path of regex construction
modelled explicitly (`Except.error` is a thrown exception). -/
def extractSkillsFromTextE (text : String) (skills : List Skill) :
    Except String (List String) :=
  scanCandidatesE text.data [] (sortCandidates (buildCandidates skills))

/-- JavaScript regex whitespace class `\s`, restricted to ASCII. -/
def isJsSpace (c : Char) : Bool :=
  c = ' ' || c = '\t' || c = '\n' || c = '\r' || c = '\x0b' || c = '\x0c'

/-- ASCII model of JavaScript `String.prototype.trim`. -/
def jsTrim (s : List Char) : List Char :=
  ((s.dropWhile isJsSpace).reverse.dropWhile isJsSpace).reverse

/-- `text.replace(/\s+/g, " ")` from `linkedinParser.ts` line 152: each
maximal whitespace run becomes one space.  The flag tracks whether the
previous character was whitespace (continuing a run). -/
def collapseWsAux : Bool → List Char → List Char
  | _, [] => []
  | inRun, c :: cs =>
    if isJsSpace c then
      if inRun then collapseWsAux true cs else ' ' :: collapseWsAux true cs
    else
      c :: collapseWsAux false cs

/-- Whitespace collapsing followed by trimming, i.e. the `cleanedText`
of `linkedinParser.ts` lines 151–153. -/
def cleanLinkedInText (text : String) : String :=
  ⟨jsTrim (collapseWsAux false text.data)⟩

/-- `parseLinkedInText` from `src/utils/linkedinParser.ts` lines 145–156:
throw on input that is empty after trimming, otherwise run the extractor
on the whitespace-collapsed text.  (`!text` in the source is subsumed by
the trim test: the empty string trims to the empty string.) -/
def parseLinkedInText (text : String) (skills : List Skill) :
    Except String (List String) :=
  if (jsTrim text.data).length == 0 then
    .error "Please paste some text from your LinkedIn profile."
  else
    extractSkillsFromTextE (cleanLinkedInText text) skills

/-- Index of the first word character of a text, if any.  Auxiliary to
relating the empty-pattern regex `\b\b` to the presence of a word
character. -/
def firstWordIdx : List Char → Option Nat
  | [] => none
  | c :: cs => if isWordChar c then some 0 else (firstWordIdx cs).map (· + 1)

/-- Requirement entry of a role, from `src/types.ts`
(`RoleSkillRequirement`); the data model constrains `importance` to
`1 | 2 | 3`. -/
structure RoleSkillRequirement where
  skillId : String
  importance : Nat
deriving DecidableEq

/-- Role definition, from `src/types.ts` (`RoleDefinition`). -/
structure RoleDefinition where
  id : String
  name : String
  description : String
  responsibilities : List String
  requiredSkills : List RoleSkillRequirement
deriving DecidableEq

/-- Result of the gap analysis, from `src/types.ts`
(`GapAnalysisResult`); the category breakdown is a total function over
the category enum. -/
structure GapAnalysisResult where
  roleId : String
  normalizedUserSkills : List String
  matchedSkills : List String
  missingSkills : List String
  readinessPercent : Nat
  weightedReadinessPercent : Nat
  missingSkillsByCategory : SkillCategory → List String

/-- Modelled from the spec: `round(100 * num / den)` with `round` the
half-up rounding of `Math.round`, computed exactly on naturals:
`(200 * num + den) / (2 * den) = floor(100 * num / den + 1 / 2)` for
`den > 0`. -/
def roundPct (num den : Nat) : Nat :=
  (200 * num + den) / (2 * den)

/-- Modelled from the spec: the gap analyzer `analyze` of §4.2
(`src/utils/gapAnalysis.ts` is imported by `src/App.tsx` but its
implementation is not among the sources).  Step 1 drops user ids absent
from the vocabulary; step 2 classifies each requirement in declaration
order; steps 3–4 compute the simple and importance-weighted readiness
with the explicit zero-requirements guard returning 100; step 5 groups
missing skills by the category looked up in the vocabulary, total over
the enum. -/
def analyzeGaps (userSkillIds : List String) (role : RoleDefinition)
    (vocabulary : List Skill) : GapAnalysisResult :=
  let normalized := userSkillIds.filter fun sid => vocabulary.any fun s => s.id == sid
  let matchedReqs := role.requiredSkills.filter fun r => normalized.contains r.skillId
  let missing := (role.requiredSkills.filter fun r => !(normalized.contains r.skillId)).map
    RoleSkillRequirement.skillId
  let total := role.requiredSkills.length
  { roleId := role.id
    normalizedUserSkills := normalized
    matchedSkills := matchedReqs.map RoleSkillRequirement.skillId
    missingSkills := missing
    readinessPercent := if total == 0 then 100 else roundPct matchedReqs.length total
    weightedReadinessPercent :=
      if total == 0 then 100
      else roundPct ((matchedReqs.map RoleSkillRequirement.importance).sum)
        ((role.requiredSkills.map RoleSkillRequirement.importance).sum)
    missingSkillsByCategory := fun cat =>
      missing.filter fun sid =>
        match vocabulary.find? (fun s => s.id == sid) with
        | some s => s.category == cat
        | none => false }

/-- The two-skill vocabulary of the spec scenario for weighted
readiness: skill A (importance 3 in the role below) and skill B. -/
def vocabAB : List Skill :=
  [⟨"A", "Skill A", [], .tool⟩, ⟨"B", "Skill B", [], .tool⟩]

/-- The role of the spec scenario: requires A with importance 3 and B
with importance 1. -/
def roleAB : RoleDefinition :=
  ⟨"role-ab", "Role AB", "scenario role", [], [⟨"A", 3⟩, ⟨"B", 1⟩]⟩

/-- The canonical two-skill vocabulary of the JavaScript/Java
disambiguation scenario. -/
def vocabJJ : List Skill :=
  [⟨"js", "JavaScript", ["ecmascript"], .language⟩, ⟨"java", "Java", [], .language⟩]

/-- A role with no requirements, for the vacuous-readiness case. -/
def roleEmpty : RoleDefinition :=
  ⟨"empty-role", "Empty Role", "role with no requirements", [], []⟩

/-- Escaping a nonempty pattern gives a nonempty body. -/
theorem escapeRegExp_eq_nil {cs : List Char} : escapeRegExp cs = [] ↔ cs = [] := by
  cases cs with
  | nil => simp [escapeRegExp]
  | cons c cs' =>
    simp only [escapeRegExp]
    split <;> simp

/-- A list does not contain an element that is not a member
(specialized to strings, where `==` is equality). -/
theorem contains_eq_false_of_not_mem {l : List String} {a : String} (h : a ∉ l) :
    l.contains a = false := by
  simp only [List.contains_eq_any_beq, List.any_eq_false]
  intro x hx
  simp only [beq_iff_eq]
  intro he
  exact h (he ▸ hx)

/-- Escaping produces a pure literal regex body that denotes the
original pattern: parsing the escaped string recovers the pattern. -/
theorem literalOfEscaped_escapeRegExp : ∀ p : List Char,
    literalOfEscaped (escapeRegExp p) = some p := by
  intro p
  induction p with
  | nil => rfl
  | cons c cs ih =>
    by_cases hc : isMetaChar c = true
    · rw [escapeRegExp, if_pos hc, literalOfEscaped, if_pos rfl, if_pos hc, ih]
      rfl
    · have hcb : ¬c = '\\' := by
        intro h
        subst h
        exact hc (by decide)
      rw [escapeRegExp, if_neg hc]
      cases he : escapeRegExp cs with
      | nil =>
        have hnil : cs = [] := escapeRegExp_eq_nil.mp he
        subst hnil
        rw [literalOfEscaped, if_neg hc]
      | cons d rest =>
        rw [he] at ih
        rw [literalOfEscaped, if_neg hcb, if_neg hc, ih]
        rfl

/-- The faithful scan (with the throwing regex-construction path) never
throws and agrees with the direct scan: every escaped candidate body
parses back to the candidate pattern. -/
theorem scanCandidatesE_eq_ok (text : List Char) :
    ∀ (cands : List (String × String)) (seen : List String),
      scanCandidatesE text seen cands = .ok (scanPure text seen cands) := by
  intro cands
  induction cands with
  | nil => intro seen; rfl
  | cons pc rest ih =>
    intro seen
    obtain ⟨pat, sid⟩ := pc
    simp only [scanCandidatesE, scanPure, jsRegexTest, literalOfEscaped_escapeRegExp,
      Option.map_some']
    split <;> simp [ih, Except.map]

/-- Membership in an insertion is membership in the inserted element or
the base list. -/
theorem mem_insertCand {x c : String × String} : ∀ {l : List (String × String)},
    x ∈ insertCand c l ↔ x = c ∨ x ∈ l := by
  intro l
  induction l with
  | nil => simp [insertCand]
  | cons d ds ih =>
    simp only [insertCand]
    split
    · simp only [List.mem_cons, ih]
      tauto
    · simp [List.mem_cons]

/-- Sorting the candidate list preserves its members. -/
theorem mem_sortCandidates {x : String × String} : ∀ {l : List (String × String)},
    x ∈ sortCandidates l ↔ x ∈ l := by
  intro l
  induction l with
  | nil => simp [sortCandidates]
  | cons c cs ih => simp [sortCandidates, mem_insertCand, ih]

/-- Membership in the flat candidate list is membership in some
vocabulary entry's own candidates. -/
theorem mem_buildCandidates {pc : String × String} : ∀ {skills : List Skill},
    pc ∈ buildCandidates skills ↔ ∃ s ∈ skills, pc ∈ skillCandidates s := by
  intro skills
  induction skills with
  | nil => simp [buildCandidates]
  | cons s rest ih =>
    simp [buildCandidates, List.mem_append, ih, List.exists_mem_cons_iff]

/-- Characterization of the scan output: a skill id is produced exactly
when it is not blocked by the seen set and some candidate carrying it
matches the text. -/
theorem mem_scanPure (text : List Char) (sid : String) :
    ∀ (cands : List (String × String)) (seen : List String),
      sid ∈ scanPure text seen cands ↔
        sid ∉ seen ∧ ∃ pc ∈ cands, pc.2 = sid ∧ regexTestB pc.1.data text = true := by
  intro cands
  induction cands with
  | nil => intro seen; simp [scanPure]
  | cons pc rest ih =>
    intro seen
    obtain ⟨pat, s⟩ := pc
    simp only [scanPure, List.exists_mem_cons_iff]
    by_cases ht : regexTestB pat.data text = true
    · by_cases hs : s ∈ seen
      · rw [if_neg (by simp [ht, hs]), ih seen]
        constructor
        · rintro ⟨hns, hex⟩
          exact ⟨hns, Or.inr hex⟩
        · rintro ⟨hns, hex | hex⟩
          · obtain ⟨hseq, -⟩ := hex
            have hseq' : s = sid := hseq
            exact absurd (hseq' ▸ hs) hns
          · exact ⟨hns, hex⟩
      · rw [if_pos (by simp [ht, hs]), List.mem_cons, ih (s :: seen)]
        constructor
        · rintro (rfl | ⟨hns, hex⟩)
          · exact ⟨hs, Or.inl ⟨rfl, ht⟩⟩
          · have hns' : sid ∉ seen := fun h => hns (List.mem_cons_of_mem _ h)
            exact ⟨hns', Or.inr hex⟩
        · rintro ⟨hns, hex | hex⟩
          · have hseq' : s = sid := hex.1
            exact Or.inl hseq'.symm
          · by_cases hse : sid = s
            · exact Or.inl hse
            · refine Or.inr ⟨?_, hex⟩
              simp only [List.mem_cons, not_or]
              exact ⟨hse, hns⟩
    · rw [if_neg (by simp [ht]), ih seen]
      constructor
      · rintro ⟨hns, hex⟩
        exact ⟨hns, Or.inr hex⟩
      · rintro ⟨hns, hex | hex⟩
        · exact absurd hex.2 ht
        · exact ⟨hns, hex⟩

/-- The scan never records the same skill id twice, whatever the
candidates and the initial seen set. -/
theorem nodup_scanPure (text : List Char) :
    ∀ (cands : List (String × String)) (seen : List String),
      (scanPure text seen cands).Nodup := by
  intro cands
  induction cands with
  | nil => intro seen; simp [scanPure]
  | cons pc rest ih =>
    intro seen
    obtain ⟨pat, s⟩ := pc
    simp only [scanPure]
    split
    · refine List.nodup_cons.mpr ⟨fun hmem => ?_, ih _⟩
      rw [mem_scanPure] at hmem
      exact hmem.1 (List.mem_cons_self s seen)
    · exact ih seen

/-- In a text without word characters no position is a word position. -/
theorem wordAt_eq_false {text : List Char} (h : ∀ c ∈ text, isWordChar c = false)
    (i : Nat) : wordAt text i = false := by
  cases hg : text[i]? with
  | none => simp [wordAt, hg]
  | some c => simp [wordAt, hg, h c (List.getElem?_mem hg)]

/-- In a text without word characters no position is a word boundary. -/
theorem boundaryAt_eq_false {text : List Char} (h : ∀ c ∈ text, isWordChar c = false)
    (i : Nat) : boundaryAt text i = false := by
  unfold boundaryAt
  rw [wordAt_eq_false h, wordAt_eq_false h]
  simp

/-- A word-boundary-delimited regex can never match inside a text that
contains no word character. -/
theorem regexTestB_eq_false {text : List Char} (pat : List Char)
    (h : ∀ c ∈ text, isWordChar c = false) : regexTestB pat text = false := by
  unfold regexTestB
  rw [List.any_eq_false]
  intro i _
  simp [boundaryAt_eq_false h]

/-- On a text without word characters the scan records nothing. -/
theorem scanPure_eq_nil {text : List Char} (h : ∀ c ∈ text, isWordChar c = false) :
    ∀ (cands : List (String × String)) (seen : List String),
      scanPure text seen cands = [] := by
  intro cands
  induction cands with
  | nil => intro seen; rfl
  | cons pc rest ih =>
    intro seen
    obtain ⟨pat, s⟩ := pc
    simp [scanPure, regexTestB_eq_false pat.data h, ih]

/-- A text with a word character has a first word-character index. -/
theorem firstWordIdx_of_any {text : List Char} (h : text.any isWordChar = true) :
    ∃ k, firstWordIdx text = some k := by
  induction text with
  | nil => simp at h
  | cons c cs ih =>
    cases hc : isWordChar c with
    | true => exact ⟨0, by simp [firstWordIdx, hc]⟩
    | false =>
      rw [List.any_cons, hc, Bool.false_or] at h
      obtain ⟨k, hk⟩ := ih h
      exact ⟨k + 1, by simp [firstWordIdx, hc, hk]⟩

/-- The first word-character index lies inside the text. -/
theorem firstWordIdx_lt {text : List Char} {k : Nat}
    (h : firstWordIdx text = some k) : k < text.length := by
  induction text generalizing k with
  | nil => simp [firstWordIdx] at h
  | cons c cs ih =>
    cases hc : isWordChar c with
    | true =>
      rw [firstWordIdx, if_pos hc] at h
      cases h
      simp
    | false =>
      rw [firstWordIdx, if_neg (by simp [hc])] at h
      cases hfw : firstWordIdx cs with
      | none => rw [hfw] at h; simp at h
      | some j =>
        rw [hfw] at h
        simp only [Option.map_some'] at h
        cases h
        simpa using Nat.succ_lt_succ (ih hfw)

/-- The first word-character index is a word position. -/
theorem firstWordIdx_wordAt {text : List Char} {k : Nat}
    (h : firstWordIdx text = some k) : wordAt text k = true := by
  induction text generalizing k with
  | nil => simp [firstWordIdx] at h
  | cons c cs ih =>
    cases hc : isWordChar c with
    | true =>
      rw [firstWordIdx, if_pos hc] at h
      cases h
      simp [wordAt, hc]
    | false =>
      rw [firstWordIdx, if_neg (by simp [hc])] at h
      cases hfw : firstWordIdx cs with
      | none => rw [hfw] at h; simp at h
      | some j =>
        rw [hfw] at h
        simp only [Option.map_some'] at h
        cases h
        simpa [wordAt] using ih hfw

/-- Positions before the first word-character index are non-word. -/
theorem firstWordIdx_min {text : List Char} {k : Nat}
    (h : firstWordIdx text = some k) : ∀ j < k, wordAt text j = false := by
  induction text generalizing k with
  | nil => simp [firstWordIdx] at h
  | cons c cs ih =>
    cases hc : isWordChar c with
    | true =>
      rw [firstWordIdx, if_pos hc] at h
      cases h
      intro j hj
      exact absurd hj (Nat.not_lt_zero j)
    | false =>
      rw [firstWordIdx, if_neg (by simp [hc])] at h
      cases hfw : firstWordIdx cs with
      | none => rw [hfw] at h; simp at h
      | some i =>
        rw [hfw] at h
        simp only [Option.map_some'] at h
        cases h
        intro j hj
        cases j with
        | zero => simp [wordAt, hc]
        | succ j' =>
          have hj' : j' < i := Nat.lt_of_succ_lt_succ hj
          simpa [wordAt] using ih hfw j' hj'

/-- The first word-character position is a word boundary. -/
theorem boundaryAt_firstWordIdx {text : List Char} {k : Nat}
    (h : firstWordIdx text = some k) : boundaryAt text k = true := by
  have hw := firstWordIdx_wordAt h
  unfold boundaryAt
  cases k with
  | zero => simp [hw]
  | succ j =>
    have hprev : wordAt text j = false := firstWordIdx_min h j (Nat.lt_succ_self j)
    simp [hw, hprev]

/-- The empty pattern's regex `\b\b` tests exactly whether the text has
a word boundary, i.e. whether the text contains a word character. -/
theorem regexTestB_nil (text : List Char) :
    regexTestB [] text = text.any isWordChar := by
  cases hany : text.any isWordChar with
  | false =>
    have h : ∀ c ∈ text, isWordChar c = false := by
      rw [List.any_eq_false] at hany
      intro c hc
      simpa using hany c hc
    exact regexTestB_eq_false [] h
  | true =>
    obtain ⟨k, hk⟩ := firstWordIdx_of_any hany
    have hklt : k < text.length := firstWordIdx_lt hk
    have hb : boundaryAt text k = true := boundaryAt_firstWordIdx hk
    unfold regexTestB
    rw [List.any_eq_true]
    refine ⟨k, List.mem_range.mpr (Nat.lt_succ_of_lt hklt), ?_⟩
    simp [hb, litMatchAt]

/-- Inserting into a length-descending list keeps it length-descending. -/
theorem pairwise_insertCand {c : String × String} {l : List (String × String)}
    (h : l.Pairwise fun a b => b.1.length ≤ a.1.length) :
    (insertCand c l).Pairwise fun a b => b.1.length ≤ a.1.length := by
  induction l with
  | nil => simp [insertCand]
  | cons d ds ih =>
    rw [List.pairwise_cons] at h
    obtain ⟨hd, hds⟩ := h
    rw [insertCand]
    split
    · rename_i hlen
      refine List.pairwise_cons.mpr ⟨?_, ih hds⟩
      intro x hx
      rcases mem_insertCand.mp hx with rfl | hx'
      · exact Nat.le_of_lt hlen
      · exact hd x hx'
    · rename_i hlen
      have hle : d.1.length ≤ c.1.length := Nat.le_of_not_lt hlen
      refine List.pairwise_cons.mpr ⟨?_, List.pairwise_cons.mpr ⟨hd, hds⟩⟩
      intro x hx
      rcases List.mem_cons.mp hx with rfl | hx'
      · exact hle
      · exact Nat.le_trans (hd x hx') hle

/-- The sorted candidate list is ordered by pattern length, longest
first. -/
theorem sortCandidates_pairwise : ∀ l : List (String × String),
    (sortCandidates l).Pairwise fun a b => b.1.length ≤ a.1.length := by
  intro l
  induction l with
  | nil => simp [sortCandidates]
  | cons c cs ih =>
    rw [sortCandidates]
    exact pairwise_insertCand ih

/-- Insertion never reorders candidates of any fixed pattern length: the
inserted element lands in front of exactly the candidates of smaller or
equal length. -/
theorem filter_insertCand (c : String × String) (n : Nat) :
    ∀ l : List (String × String),
      (insertCand c l).filter (fun d => d.1.length == n) =
        if c.1.length == n then c :: l.filter (fun d => d.1.length == n)
        else l.filter (fun d => d.1.length == n) := by
  intro l
  induction l with
  | nil =>
    rw [insertCand]
    by_cases hcn : (c.1.length == n) = true
    · simp [List.filter_cons, hcn]
    · have hcn' : (c.1.length == n) = false := by simpa using hcn
      simp [List.filter_cons, hcn']
  | cons d ds ih =>
    rw [insertCand]
    split
    · rename_i hlen
      by_cases hcn : (c.1.length == n) = true
      · have hcl : c.1.length = n := by simpa using hcn
        have hdn : (d.1.length == n) = false := by
          have hne : d.1.length ≠ n := Nat.ne_of_gt (hcl ▸ hlen)
          simpa using hne
        simp [List.filter_cons, ih, hdn, hcn]
      · have hcn' : (c.1.length == n) = false := by simpa using hcn
        simp [List.filter_cons, ih, hcn']
    · by_cases hcn : (c.1.length == n) = true
      · simp [List.filter_cons, hcn]
      · have hcn' : (c.1.length == n) = false := by simpa using hcn
        simp [List.filter_cons, hcn']

/-- Stability of the sort: for every pattern length, the candidates of
that length appear in the sorted list exactly in their original order. -/
theorem filter_sortCandidates (n : Nat) : ∀ l : List (String × String),
    (sortCandidates l).filter (fun d => d.1.length == n) =
      l.filter (fun d => d.1.length == n) := by
  intro l
  induction l with
  | nil => rfl
  | cons c cs ih =>
    rw [sortCandidates, filter_insertCand, ih, List.filter_cons]

/-- C1 (counterexample): the claim that an empty candidate pattern is
skipped is false.  For the vocabulary entry with id `"malformed"` and
empty label, the non-empty candidate pattern `"malformed"` does not
match the text `"a"`, yet the extractor returns `["malformed"]`: the
empty pattern built from the label matched (its regex `\b\b` holds at
the word character) and recorded the id. -/
theorem empty_pattern_not_skipped_cex :
    regexTestB "malformed".data "a".data = false ∧
    extractSkillsFromText "a" [⟨"malformed", "", [], SkillCategory.tool⟩] =
      ["malformed"] := by
  decide

/-- C1 (amended): `extractSkillsFromText` does not skip empty candidate
patterns.  The empty pattern's regex `\b\b` matches exactly the texts
containing a word character, so such an entry records its skill id on
any text with a word character; on texts without word characters no
candidate (empty or not) matches and the output is empty. -/
theorem empty_pattern_matches_iff_word_char (text : String) (skills : List Skill) :
    regexTestB [] text.data = text.data.any isWordChar ∧
    (text.data.any isWordChar = false → extractSkillsFromText text skills = []) := by
  refine ⟨regexTestB_nil text.data, fun hany => ?_⟩
  have h : ∀ c ∈ text.data, isWordChar c = false := by
    rw [List.any_eq_false] at hany
    intro c hc
    simpa using hany c hc
  exact scanPure_eq_nil h _ _

/-- Witness for C1 (amended) at the word-character-free text `" ."`. -/
theorem empty_pattern_matches_iff_word_char_witness :
    extractSkillsFromText " ." [⟨"malformed", "", [], SkillCategory.tool⟩] = [] :=
  (empty_pattern_matches_iff_word_char " ."
    [⟨"malformed", "", [], SkillCategory.tool⟩]).2 (by decide)

/-- C2: for a vocabulary containing a skill with candidate pattern
`"javascript"` and a distinct skill with candidate pattern `"java"`:
on text matching both patterns as whole words both ids are returned
exactly once each; and for the two-skill vocabulary on text containing
`"Java"` as a whole word but not `"JavaScript"`, only the Java id is
returned — the JavaScript occurrence is never attributed to the Java
id. -/
theorem extractor_distinguishes_javascript_from_java
    (text : String) (V : List Skill) (s1 s2 : Skill)
    (h1 : s1 ∈ V) (h2 : s2 ∈ V) (_hne : s1.id ≠ s2.id)
    (hp1 : ("javascript", s1.id) ∈ skillCandidates s1)
    (hp2 : ("java", s2.id) ∈ skillCandidates s2) :
    (regexTestB "javascript".data text.data = true →
      regexTestB "java".data text.data = true →
        (extractSkillsFromText text V).count s1.id = 1 ∧
        (extractSkillsFromText text V).count s2.id = 1) ∧
    (V = [s1, s2] →
      skillCandidates s1 = [("javascript", s1.id)] →
      skillCandidates s2 = [("java", s2.id)] →
      regexTestB "java".data text.data = true →
      regexTestB "javascript".data text.data = false →
        extractSkillsFromText text V = [s2.id]) := by
  constructor
  · intro htjs htja
    have hnd : (extractSkillsFromText text V).Nodup := nodup_scanPure text.data _ _
    have hmem1 : s1.id ∈ extractSkillsFromText text V := by
      rw [extractSkillsFromText, mem_scanPure]
      refine ⟨List.not_mem_nil s1.id, ⟨("javascript", s1.id), ?_, rfl, htjs⟩⟩
      rw [mem_sortCandidates, mem_buildCandidates]
      exact ⟨s1, h1, hp1⟩
    have hmem2 : s2.id ∈ extractSkillsFromText text V := by
      rw [extractSkillsFromText, mem_scanPure]
      refine ⟨List.not_mem_nil s2.id, ⟨("java", s2.id), ?_, rfl, htja⟩⟩
      rw [mem_sortCandidates, mem_buildCandidates]
      exact ⟨s2, h2, hp2⟩
    exact ⟨List.count_eq_one_of_mem hnd hmem1, List.count_eq_one_of_mem hnd hmem2⟩
  · rintro rfl hsc1 hsc2 htja htjs
    rw [extractSkillsFromText]
    have hbc : buildCandidates [s1, s2] = [("javascript", s1.id), ("java", s2.id)] := by
      simp [buildCandidates, hsc1, hsc2]
    rw [hbc]
    have hsort : sortCandidates [("javascript", s1.id), ("java", s2.id)] =
        [("javascript", s1.id), ("java", s2.id)] := by
      simp only [sortCandidates, insertCand]
      rw [if_neg (by decide)]
    rw [hsort, scanPure, if_neg (by simp [htjs]), scanPure, if_pos (by simp [htja]),
      scanPure]

/-- Witness for C2 on the two-skill vocabulary and a text holding both
words. -/
theorem extractor_distinguishes_javascript_from_java_witness :
    (extractSkillsFromText "Java and JavaScript" vocabJJ).count "js" = 1 ∧
    (extractSkillsFromText "Java and JavaScript" vocabJJ).count "java" = 1 :=
  (extractor_distinguishes_javascript_from_java "Java and JavaScript" vocabJJ
      ⟨"js", "JavaScript", ["ecmascript"], .language⟩
      ⟨"java", "Java", [], .language⟩
      (by decide) (by decide) (by decide) (by decide) (by decide)).1
    (by decide) (by decide)

/-- C3: the scan order is the candidate list sorted by pattern length
descending (`Pairwise`), with equal-length ties kept in vocabulary
declaration order (the per-length filtrations are unchanged, i.e. the
sort is stable); and on the spec scenario the output is exactly
`["js", "java"]`, the first-match order of that scan. -/
theorem candidates_sorted_longest_first_stable :
    (∀ skills : List Skill,
      (sortCandidates (buildCandidates skills)).Pairwise
        (fun a b => b.1.length ≤ a.1.length) ∧
      ∀ n : Nat,
        (sortCandidates (buildCandidates skills)).filter (fun d => d.1.length == n) =
          (buildCandidates skills).filter (fun d => d.1.length == n)) ∧
    extractSkillsFromText "Proficient in Java and JavaScript development." vocabJJ =
      ["js", "java"] := by
  refine ⟨fun skills => ⟨sortCandidates_pairwise _, fun n => filter_sortCandidates n _⟩, ?_⟩
  decide

/-- C4: the extractor never returns a duplicated skill id: an already
seen id is skipped while the scan continues over the remaining
candidates. -/
theorem extract_no_duplicate_ids (text : String) (skills : List Skill)
    (_huniq : (skills.map Skill.id).Nodup) :
    (extractSkillsFromText text skills).Nodup :=
  nodup_scanPure text.data _ _

/-- Witness for C4 on the unique-id vocabulary `vocabJJ`. -/
theorem extract_no_duplicate_ids_witness :
    (vocabJJ.map Skill.id).Nodup ∧
    (extractSkillsFromText "Java, JavaScript, js" vocabJJ).Nodup :=
  ⟨by decide, extract_no_duplicate_ids "Java, JavaScript, js" vocabJJ (by decide)⟩

/-- C5: the extractor never throws, for every text and vocabulary
(including patterns with regex metacharacters such as `"C++"` or
`"C#"`): every escaped candidate body is a valid pure-literal regex, so
construction and matching always succeed with an `ok` result. -/
theorem extract_never_throws (text : String) (skills : List Skill) :
    ∃ result, extractSkillsFromTextE text skills = Except.ok result :=
  ⟨extractSkillsFromText text skills, scanCandidatesE_eq_ok text.data _ _⟩

/-- C6: a role with zero requirements yields readiness 100 and weighted
readiness 100 through the explicit `total == 0` guard (no division is
performed). -/
theorem zero_requirements_readiness_100 (userSkillIds : List String)
    (role : RoleDefinition) (vocabulary : List Skill)
    (h : role.requiredSkills = []) :
    (analyzeGaps userSkillIds role vocabulary).readinessPercent = 100 ∧
    (analyzeGaps userSkillIds role vocabulary).weightedReadinessPercent = 100 := by
  simp [analyzeGaps, h]

/-- Witness for C6 on a concrete requirement-free role. -/
theorem zero_requirements_readiness_100_witness :
    (analyzeGaps ["B"] roleEmpty vocabAB).readinessPercent = 100 ∧
    (analyzeGaps ["B"] roleEmpty vocabAB).weightedReadinessPercent = 100 :=
  zero_requirements_readiness_100 ["B"] roleEmpty vocabAB (by decide)

/-- C7: for a role with at least one requirement the weighted readiness
is `round(100 * Σ importance over matched / Σ importance over all)`
with the raw 1–3 importance integers and no normalization; on the spec
scenario (A importance 3 missing, B importance 1 present) the weighted
readiness is 25 while the simple readiness is 50. -/
theorem weighted_readiness_formula :
    (∀ (userSkillIds : List String) (role : RoleDefinition) (vocabulary : List Skill),
      role.requiredSkills ≠ [] →
      (analyzeGaps userSkillIds role vocabulary).weightedReadinessPercent =
        roundPct
          (((role.requiredSkills.filter fun r =>
              (userSkillIds.filter fun sid => vocabulary.any fun s => s.id == sid).contains
                r.skillId).map RoleSkillRequirement.importance).sum)
          ((role.requiredSkills.map RoleSkillRequirement.importance).sum)) ∧
    (analyzeGaps ["B"] roleAB vocabAB).weightedReadinessPercent = 25 ∧
    (analyzeGaps ["B"] roleAB vocabAB).readinessPercent = 50 := by
  refine ⟨fun u role v h => ?_, by decide, by decide⟩
  have hlen : role.requiredSkills.length ≠ 0 := by
    simpa [List.length_eq_zero] using h
  simp [analyzeGaps, hlen]

/-- Witness for C7 at the spec scenario inputs. -/
theorem weighted_readiness_formula_witness :
    (analyzeGaps ["B"] roleAB vocabAB).weightedReadinessPercent =
      roundPct
        (((roleAB.requiredSkills.filter fun r =>
            ((["B"] : List String).filter fun sid => vocabAB.any fun s => s.id == sid).contains
              r.skillId).map RoleSkillRequirement.importance).sum)
        ((roleAB.requiredSkills.map RoleSkillRequirement.importance).sum) :=
  weighted_readiness_formula.1 ["B"] roleAB vocabAB (by decide)

/-- C8: for every vocabulary, the empty text and the whitespace-only
text `"   "` extract to the empty list (no error): a word-boundary
regex cannot match a text without word characters. -/
theorem extract_empty_and_whitespace (skills : List Skill) :
    extractSkillsFromText "" skills = [] ∧ extractSkillsFromText "   " skills = [] :=
  ⟨scanPure_eq_nil (by decide) _ _, scanPure_eq_nil (by decide) _ _⟩

/-- C9: the extractor is deterministic and stateless — two invocations
on identical inputs give identical outputs (both in the direct model and
in the model with the throwing path); in this pure embedding the source
retains no state between calls (each iteration builds a fresh regex and
all mutable state is function-local). -/
theorem extract_deterministic (text : String) (skills : List Skill) :
    extractSkillsFromText text skills = extractSkillsFromText text skills ∧
    extractSkillsFromTextE text skills = extractSkillsFromTextE text skills :=
  ⟨rfl, rfl⟩

/-- C10: `parseLinkedInText` throws on input that is empty or
whitespace-only (empty after trimming) instead of returning an empty
list; on any other input it returns (`ok`) exactly the extractor's
result on the whitespace-collapsed, trimmed text. -/
theorem parseLinkedInText_spec (text : String) (skills : List Skill) :
    ((jsTrim text.data).length = 0 →
      parseLinkedInText text skills =
        Except.error "Please paste some text from your LinkedIn profile.") ∧
    ((jsTrim text.data).length ≠ 0 →
      parseLinkedInText text skills =
        Except.ok (extractSkillsFromText (cleanLinkedInText text) skills)) := by
  constructor
  · intro h
    rw [parseLinkedInText, if_pos (by simp [h])]
  · intro h
    rw [parseLinkedInText, if_neg (by simp [h])]
    exact scanCandidatesE_eq_ok _ _ _

/-- Witness for C10: the empty input throws; a padded input returns the
extractor's result on the cleaned text. -/
theorem parseLinkedInText_spec_witness :
    parseLinkedInText "" [] =
      Except.error "Please paste some text from your LinkedIn profile." ∧
    parseLinkedInText "  Java  dev " vocabJJ =
      Except.ok (extractSkillsFromText (cleanLinkedInText "  Java  dev ") vocabJJ) :=
  ⟨(parseLinkedInText_spec "" []).1 (by decide),
   (parseLinkedInText_spec "  Java  dev " vocabJJ).2 (by decide)⟩
